import Mathlib

/-!
Verification of the dependency-ledger rendering, post-install resolution,
task-invocation rendering and keyword handling of the node-project /
npm-package scaffolding core (src/npm-package.ts, src/node-project.ts).

The ledger itself (deps.ts) and the task internals (tasks.ts) are not part
of the provided sources; those pieces are modelled from the specification
and marked as such in their doc comments.  Everything else is a direct
shallow embedding of the TypeScript in src/.
-/

namespace Projen

/-- Dependency roles, from DependencyType in deps.ts (named in
npm-package.ts: RUNTIME, BUILD, PEER, BUNDLED, TEST, DEVENV). -/
inductive DependencyType where
  | RUNTIME
  | BUILD
  | PEER
  | BUNDLED
  | TEST
  | DEVENV
deriving DecidableEq, Repr

/-- A ledger entry: package name, optional declared version range, role. -/
structure Dependency where
  name : String
  version : Option String
  type : DependencyType
deriving DecidableEq, Repr

/-- The fatal errors of the rendering pipeline: a peer range with no
resolvable minimum version, a name that is both bundled and peer, and an
unrecognized task execution mode. -/
inductive RenderError where
  | resolution (name range : String)
  | conflict (name : String)
  | configuration (mode : String)
deriving DecidableEq, Repr

/-- Splits a character list at its last occurrence of the '@' character,
returning the part before and the part after, or none when no '@' occurs. -/
def splitLastAt : List Char → Option (List Char × List Char)
  | [] => none
  | c :: cs =>
    match splitLastAt cs with
    | some (b, a) => some (c :: b, a)
    | none => if c = '@' then some ([], cs) else none

/-- Modelled from the spec: deps.ts (not in the sources) parses an optional
inline version range out of a dependency spec using the pattern
package-name, '@', range, where only the last '@' that is not the first
character counts as the separator (so scoped names are not mis-split). -/
def splitDep (s : String) : String × Option String :=
  match splitLastAt s.data with
  | some (b, a) =>
    if b = [] then (s, none) else (String.mk b, some (String.mk a))
  | none => (s, none)

/-- A well-formed package name: nonempty, with no '@' after its first
character (scoped names such as those starting with '@' are allowed). -/
def goodName (s : String) : Bool :=
  match s.data with
  | [] => false
  | _ :: rest => rest.all (fun c => !(c = '@'))

/-- Modelled from the spec: deps.ts stores at most one ledger entry per
(name, role) key; adding an existing key overwrites its version in place,
while a new key is appended, so insertion order is preserved. -/
def addDep (l : List Dependency) (spec : String) (ty : DependencyType) :
    List Dependency :=
  let p := splitDep spec
  if l.any (fun d => decide (d.name = p.1 ∧ d.type = ty)) then
    l.map (fun d =>
      if d.name = p.1 ∧ d.type = ty then { d with version := p.2 } else d)
  else
    l ++ [⟨p.1, p.2, ty⟩]

/-- The ledger uniqueness invariant: no two entries share a (name, role). -/
def DepsWf (l : List Dependency) : Prop :=
  l.Pairwise (fun a b => ¬(a.name = b.name ∧ a.type = b.type))

instance (l : List Dependency) : Decidable (DepsWf l) := by
  unfold DepsWf; infer_instance

/-- JavaScript-object style association list assignment: an existing key is
updated in place, a new key is appended at the end. -/
def insertKV (m : List (String × String)) (k v : String) :
    List (String × String) :=
  if m.any (fun e => decide (e.1 = k)) then
    m.map (fun e => if e.1 = k then (k, v) else e)
  else
    m ++ [(k, v)]

/-- Association list lookup (JavaScript object property read). -/
def lookupKV (m : List (String × String)) (k : String) : Option String :=
  match m with
  | [] => none
  | e :: rest => if e.1 = k then some e.2 else lookupKV rest k

/-- The synthetic dev-dependency spec the peer-pinning loop of
renderDependencies (npm-package.ts lines 568-581) builds for one peer
entry: the peer's name, and when a version range is declared (nonempty,
per JavaScript truthiness) the name pinned with '@' to the minimum version
of the range; a range with no resolvable minimum is a resolution error.
The minimum-version computation (the external semver.minVersion) is the
parameter minV; none models both a null result and a missing version. -/
def pinSpec (minV : String → Option String) (d : Dependency) :
    Except RenderError String :=
  match d.version with
  | none => .ok d.name
  | some r =>
    if r = "" then .ok d.name
    else
      match minV r with
      | none => .error (.resolution d.name r)
      | some v =>
        if v = "" then .error (.resolution d.name r)
        else .ok (d.name ++ "@" ++ v)

/-- The peer-pinning loop of renderDependencies: for every PEER entry of
the ledger snapshot taken before the loop, add the synthetic pinned
BUILD dependency via addDevDeps (which goes through the ledger add). -/
def pinFold (minV : String → Option String) :
    List Dependency → List Dependency → Except RenderError (List Dependency)
  | [], acc => .ok acc
  | d :: rest, acc =>
    match pinSpec minV d with
    | .error e => .error e
    | .ok s => pinFold minV rest (addDep acc s .BUILD)

/-- Peer pinning over a ledger (npm-package.ts lines 567-581): iterate the
PEER entries of the ledger as it stands when the loop starts, mutating the
ledger by adding a pinned BUILD dependency for each. -/
def pinPeers (minV : String → Option String) (ledger : List Dependency) :
    Except RenderError (List Dependency) :=
  pinFold minV (ledger.filter (fun d => decide (d.type = .PEER))) ledger

/-- The four output buckets of renderDependencies: the three role maps of
the manifest plus the bundled name list (npm-package.ts lines 560-563). -/
structure NpmDeps where
  dependencies : List (String × String)
  devDependencies : List (String × String)
  peerDependencies : List (String × String)
  bundledDependencies : List String
deriving DecidableEq, Repr

/-- The partition loop over the ledger (npm-package.ts lines 583-612):
each entry's version defaults to the wildcard; BUNDLED entries go to the
bundled list and the runtime map unless the same name also appears as a
PEER anywhere in the ledger, which is a conflict error; PEER, RUNTIME go
to their maps, and TEST, DEVENV, BUILD all go to the dev map. -/
def partFold (ledger : List Dependency) :
    List Dependency → NpmDeps → Except RenderError NpmDeps
  | [], acc => .ok acc
  | d :: rest, acc =>
    let version := d.version.getD "*"
    match d.type with
    | .BUNDLED =>
      if ledger.any (fun e => decide (e.name = d.name ∧ e.type = .PEER)) then
        .error (.conflict d.name)
      else
        partFold ledger rest
          { acc with
            bundledDependencies := acc.bundledDependencies ++ [d.name]
            dependencies := insertKV acc.dependencies d.name version }
    | .PEER =>
      partFold ledger rest
        { acc with peerDependencies := insertKV acc.peerDependencies d.name version }
    | .RUNTIME =>
      partFold ledger rest
        { acc with dependencies := insertKV acc.dependencies d.name version }
    | _ =>
      partFold ledger rest
        { acc with devDependencies := insertKV acc.devDependencies d.name version }

/-- Partition of a whole ledger into the four buckets, starting empty. -/
def partitionDeps (ledger : List Dependency) : Except RenderError NpmDeps :=
  partFold ledger ledger ⟨[], [], [], []⟩

/-- One reconciliation decision of readDeps (npm-package.ts lines 628-639):
the newly computed version is kept unless it is the wildcard and the
previously recorded version exists, is truthy (nonempty) and is itself not
the wildcard, in which case the previous version is kept. -/
def reconcile (current : List (String × String)) (name v : String) : String :=
  match lookupKV current name with
  | some cv => if v = "*" ∧ cv ≠ "" ∧ cv ≠ "*" then cv else v
  | none => v

/-- readDeps from renderDependencies: reconcile every entry of the freshly
computed map against the previously generated manifest's map. -/
def readDeps (user current : List (String × String)) :
    List (String × String) :=
  user.map (fun e => (e.1, reconcile current e.1 e.2))

/-- The role-partitioned dependency maps of a previously generated
package manifest, as read back for reconciliation. -/
structure PriorManifest where
  dependencies : List (String × String)
  devDependencies : List (String × String)
  peerDependencies : List (String × String)
deriving DecidableEq, Repr

/-- The pinnedDevDependency option defaulting of npm-package.ts line 567:
peer pinning is enabled when the option is unset or true. -/
def pinnedDevDependencyFlag (o : Option Bool) : Bool :=
  o.getD true

/-- NpmPackage.renderDependencies (npm-package.ts lines 559-654): run the
peer-pinning loop when enabled, partition the (possibly grown) ledger into
the four buckets, and, when a previously generated manifest exists,
reconcile the three role maps against it.  Returns the ledger as left by
the pinning loop together with the rendered snapshot. -/
def renderDependencies (minV : String → Option String) (pinned : Bool)
    (ledger : List Dependency) (prior : Option PriorManifest) :
    Except RenderError (List Dependency × NpmDeps) :=
  match (if pinned then pinPeers minV ledger else .ok ledger) with
  | .error e => .error e
  | .ok l' =>
    match partitionDeps l' with
    | .error e => .error e
    | .ok out =>
      match prior with
      | none => .ok (l', out)
      | some pkg =>
        .ok (l',
          { out with
            devDependencies := readDeps out.devDependencies pkg.devDependencies
            dependencies := readDeps out.dependencies pkg.dependencies
            peerDependencies := readDeps out.peerDependencies pkg.peerDependencies })

/-- The sorted helper of npm-package.ts (lines 836-850) applied to a
dependency map: the entries are sorted by key.  The JavaScript
localeCompare comparator is abstracted as the lexicographic order on
strings. -/
def sortedRecord (m : List (String × String)) : List (String × String) :=
  m.mergeSort (fun a b => decide (a.1 ≤ b.1))

/-- The desired version of one entry in the resolveDeps loop of
resolveDepsAndWritePackageJson (npm-package.ts lines 664-678): an entry
still carrying the wildcard is rewritten to a caret range at the
installed package's version when the lookup (the external require.resolve
plus manifest read, abstracted as the parameter installed) succeeds, and
is left as the wildcard when it fails; any other entry keeps its
definition. -/
def desiredVersionOf (installed : String → Option String)
    (e : String × String) : String :=
  if e.2 = "*" then
    match installed e.1 with
    | some iv => "^" ++ iv
    | none => e.2
  else e.2

/-- One iteration of the resolveDeps loop (npm-package.ts lines 663-685):
compute the desired version, then either record the warning and drop the
entry (when the desired version is falsy, i.e. the empty string) or store
the entry in the result. -/
def resolveStep (installed : String → Option String)
    (acc : List (String × String) × List String) (e : String × String) :
    List (String × String) × List String :=
  let desired := desiredVersionOf installed e
  if e.2 = "*" ∧ desired = "" then
    (acc.1, acc.2 ++ ["unable to resolve version for " ++ e.1 ++
      " from installed modules"])
  else
    (insertKV acc.1 e.1 desired, acc.2)

/-- The resolveDeps closure of resolveDepsAndWritePackageJson
(npm-package.ts lines 660-695): fold the loop step over the freshly
rendered user map, returning the resulting map sorted by key together
with the warnings the loop emitted.  The current parameter is only used
for verbose removal reporting in the source and does not affect the
result. -/
def resolveDeps (installed : String → Option String)
    (current user : List (String × String)) :
    List (String × String) × List String :=
  let r := user.foldl (resolveStep installed)
    (([] : List (String × String)), ([] : List String))
  (sortedRecord r.1, r.2)

/-- NpmPackage.addDeps (npm-package.ts lines 349-353): every spec is added
to the ledger in the RUNTIME role; there is no failure path. -/
def addDeps (ledger : List Dependency) (deps : List String) :
    Except String (List Dependency) :=
  .ok (deps.foldl (fun l d => addDep l d .RUNTIME) ledger)

/-- NpmPackage.addDevDeps (npm-package.ts lines 364-369): every spec is
added to the ledger in the BUILD role; there is no failure path. -/
def addDevDeps (ledger : List Dependency) (deps : List String) :
    Except String (List Dependency) :=
  .ok (deps.foldl (fun l d => addDep l d .BUILD) ledger)

/-- NpmPackage.addPeerDeps (npm-package.ts lines 384-392): when called
with at least one spec while library dependencies are not allowed, it
throws (the message joins the array's keys, which for an array are its
indices); otherwise every spec is added in the PEER role. -/
def addPeerDeps (allowLibraryDependencies : Bool) (ledger : List Dependency)
    (deps : List String) : Except String (List Dependency) :=
  if deps.length ≠ 0 ∧ !allowLibraryDependencies then
    .error ("cannot add peer dependencies to an APP project: " ++
      String.intercalate "," ((List.range deps.length).map toString))
  else
    .ok (deps.foldl (fun l d => addDep l d .PEER) ledger)

/-- NpmPackage.addBundledDeps (npm-package.ts lines 406-414): when called
with at least one spec while library dependencies are not allowed, it
throws; otherwise every spec is added in the BUNDLED role. -/
def addBundledDeps (allowLibraryDependencies : Bool)
    (ledger : List Dependency) (deps : List String) :
    Except String (List Dependency) :=
  if deps.length ≠ 0 ∧ !allowLibraryDependencies then
    .error ("cannot add bundled dependencies to an APP project: " ++
      String.intercalate "," deps)
  else
    .ok (deps.foldl (fun l d => addDep l d .BUNDLED) ledger)

/-- NpmPackage.addKeywords (npm-package.ts lines 430-434): keywords are
kept in a set; the set is modelled as a duplicate-free list in insertion
order, matching the insertion-ordered JavaScript Set. -/
def addKeywords (st : List String) (keywords : List String) : List String :=
  keywords.foldl (fun s k => if k ∈ s then s else s ++ [k]) st

/-- The keywords entry of the manifest (npm-package.ts line 311): the set
is turned into an array and sorted.  The default JavaScript sort
comparator is abstracted as the lexicographic order on strings. -/
def renderKeywords (st : List String) : List String :=
  st.mergeSort (fun a b => decide (a ≤ b))

/-- A task as the npm-script renderer sees it.  The step list and spawn
flattening live in tasks.ts, which is not part of the sources; modelled
from the spec, the joined shell command of a task (its flattened step
sequence) is abstracted as a stored string. -/
structure Task where
  name : String
  shellCommand : String
deriving DecidableEq, Repr

/-- Modelled from the spec: Task.toShellCommand (tasks.ts, not in the
sources) produces the task's accumulated steps as one joined shell
command line, with spawned tasks inlined; abstracted as a stored field. -/
def Task.toShellCommand (t : Task) : String :=
  t.shellCommand

/-- The two values of the NpmTaskExecution string enum
(npm-package.ts lines 783-805); the mode itself is a string, so rendering
can also meet an unrecognized value. -/
def NpmTaskExecution.PROJEN : String := "projen"

/-- The SHELL value of the NpmTaskExecution string enum. -/
def NpmTaskExecution.SHELL : String := "shell"

/-- NpmPackage.npmScriptForTask (npm-package.ts lines 773-780): PROJEN
mode renders the projen command followed by the task name, SHELL mode
renders the task's own joined shell command, and any other mode is a
configuration error. -/
def npmScriptForTask (npmTaskExecution projenCommand : String) (task : Task) :
    Except RenderError String :=
  if npmTaskExecution = NpmTaskExecution.PROJEN then
    .ok (projenCommand ++ " " ++ task.name)
  else if npmTaskExecution = NpmTaskExecution.SHELL then
    .ok task.toShellCommand
  else
    .error (.configuration npmTaskExecution)

/-- NodeProject.runTaskCommand (node-project.ts lines 1064-1071): PROJEN
mode renders the projen command followed by the task name, SHELL mode
renders the package manager's run command followed by the task name, and
any other mode is a configuration error. -/
def runTaskCommand (npmTaskExecution projenCommand runScriptCommand : String)
    (task : Task) : Except RenderError String :=
  if npmTaskExecution = NpmTaskExecution.PROJEN then
    .ok (projenCommand ++ " " ++ task.name)
  else if npmTaskExecution = NpmTaskExecution.SHELL then
    .ok (runScriptCommand ++ " " ++ task.name)
  else
    .error (.configuration npmTaskExecution)

/-- NpmPackage.renderScripts (npm-package.ts lines 747-758): the stored
script command lists are joined with the shell conjunction (an empty list
becomes a placeholder echo), then every task is rendered through
npmScriptForTask under the task's name, overwriting same-named scripts. -/
def renderScripts (npmTaskExecution projenCommand : String)
    (scripts : List (String × List String)) (tasks : List Task) :
    Except RenderError (List (String × String)) :=
  let base := scripts.foldl
    (fun acc e =>
      insertKV acc e.1
        (if e.2.length > 0 then String.intercalate " && " e.2
         else "echo \"n/a\"")) []
  tasks.foldlM
    (fun acc t => do
      let c ← npmScriptForTask npmTaskExecution projenCommand t
      pure (insertKV acc t.name c)) base

/-- The package state a synthesis run reads and writes: the dependency
ledger (mutated by the peer-pinning loop of renderDependencies), the task
list and stored scripts (never mutated by synthesis), and the fixed
configuration. -/
structure PkgState where
  ledger : List Dependency
  tasks : List Task
  scripts : List (String × List String)
  pinned : Bool
  npmTaskExecution : String
  projenCommand : String
deriving Repr

/-- One synthesis pass over the package state, as driven by
NpmPackage.preSynthesize (npm-package.ts lines 496-499, which computes the
rendered dependency snapshot) together with the script rendering consumed
when the manifest is written: it produces the new state (the ledger as
left by peer pinning), the rendered dependency snapshot and the rendered
script command strings. -/
def synthOnce (minV : String → Option String) (prior : Option PriorManifest)
    (st : PkgState) :
    Except RenderError (PkgState × NpmDeps × List (String × String)) := do
  let (l', deps) ← renderDependencies minV st.pinned st.ledger prior
  let scripts ← renderScripts st.npmTaskExecution st.projenCommand
    st.scripts st.tasks
  pure ({ st with ledger := l' }, deps, scripts)

/-- A well-behaved minimum-version resolver (as the external
semver.minVersion is): a resolved minimum is a nonempty plain version
string, never the wildcard and never containing an '@'. -/
def goodMinV (minV : String → Option String) : Prop :=
  ∀ r v, minV r = some v → v ≠ "" ∧ v ≠ "*" ∧ ∀ c ∈ v.data, c ≠ '@'

theorem splitLastAt_eq_none {cs : List Char} (h : '@' ∉ cs) :
    splitLastAt cs = none := by
  induction cs with
  | nil => rfl
  | cons c cs ih =>
    simp only [List.mem_cons, not_or] at h
    simp [splitLastAt, ih h.2, Ne.symm h.1]

theorem splitLastAt_append {a : List Char} (b : List Char) (h : '@' ∉ a) :
    splitLastAt (b ++ '@' :: a) = some (b, a) := by
  induction b with
  | nil => simp [splitLastAt, splitLastAt_eq_none h]
  | cons c b ih => simp [splitLastAt, ih]

theorem String.mk_data (s : String) : String.mk s.data = s := rfl

theorem splitDep_goodName {n : String} (h : goodName n = true) :
    splitDep n = (n, none) := by
  unfold goodName at h
  unfold splitDep
  cases hd : n.data with
  | nil => simp [hd, splitLastAt]
  | cons c rest =>
    rw [hd] at h
    simp only [List.all_eq_true] at h
    have hmem : '@' ∉ rest := by
      intro hc
      have := h '@' hc
      simp at this
    simp only [splitLastAt, splitLastAt_eq_none hmem]
    by_cases hc : c = '@' <;> simp [hc]

theorem splitDep_pin {n v : String} (hn : goodName n = true)
    (hv : ∀ c ∈ v.data, c ≠ '@') :
    splitDep (n ++ "@" ++ v) = (n, some v) := by
  have hat : "@".data = ['@'] := rfl
  have hdata : (n ++ "@" ++ v).data = n.data ++ '@' :: v.data := by
    rw [String.data_append, String.data_append, hat, List.append_assoc]
    rfl
  have hne : n.data ≠ [] := by
    unfold goodName at hn
    cases hd : n.data with
    | nil => rw [hd] at hn; simp at hn
    | cons c rest => simp
  have hvm : '@' ∉ v.data := by
    intro hc
    exact (hv '@' hc) rfl
  unfold splitDep
  rw [hdata, splitLastAt_append _ hvm]
  simp [hne, String.mk_data]

theorem lookupKV_append (m l2 : List (String × String)) (k : String) :
    lookupKV (m ++ l2) k =
      match lookupKV m k with
      | some v => some v
      | none => lookupKV l2 k := by
  induction m with
  | nil => simp [lookupKV]
  | cons e m ih =>
    by_cases he : e.1 = k
    · simp [lookupKV, he]
    · simp [lookupKV, he, ih]

theorem lookupKV_eq_none {m : List (String × String)} {k : String}
    (h : ∀ d ∈ m, d.1 ≠ k) : lookupKV m k = none := by
  induction m with
  | nil => rfl
  | cons e m ih =>
    simp only [lookupKV, if_neg (h e (by simp))]
    exact ih (fun d hd => h d (by simp [hd]))

theorem lookupKV_map_overwrite {k : String} (v : String)
    (m : List (String × String)) (h : ∃ d ∈ m, d.1 = k) :
    lookupKV (m.map (fun e => if e.1 = k then (k, v) else e)) k = some v := by
  induction m with
  | nil => simp at h
  | cons e m ih =>
    by_cases he : e.1 = k
    · simp [lookupKV, he]
    · rcases h with ⟨d, hd, hk⟩
      rcases List.mem_cons.1 hd with h | h
      · exact absurd (h ▸ hk) he
      · simp only [List.map_cons, if_neg he, lookupKV, if_neg he]
        exact ih ⟨d, h, hk⟩

theorem lookupKV_map_other {k k' : String} (v : String)
    (m : List (String × String)) (h : k' ≠ k) :
    lookupKV (m.map (fun e => if e.1 = k then (k, v) else e)) k' =
      lookupKV m k' := by
  induction m with
  | nil => rfl
  | cons e m ih =>
    by_cases he : e.1 = k
    · simp only [List.map_cons, if_pos he, lookupKV, if_neg (Ne.symm h),
        if_neg (he ▸ (Ne.symm h) : ¬e.1 = k')]
      exact ih
    · simp only [List.map_cons, if_neg he, lookupKV]
      by_cases he' : e.1 = k'
      · simp [he']
      · simp only [if_neg he']
        exact ih

theorem lookupKV_insertKV_self (m : List (String × String)) (k v : String) :
    lookupKV (insertKV m k v) k = some v := by
  unfold insertKV
  by_cases hany : m.any (fun e => decide (e.1 = k)) = true
  · rw [if_pos hany]
    simp only [List.any_eq_true, decide_eq_true_eq] at hany
    exact lookupKV_map_overwrite v m hany
  · rw [if_neg hany, lookupKV_append]
    simp only [List.any_eq_true, decide_eq_true_eq] at hany
    push_neg at hany
    rw [lookupKV_eq_none hany]
    simp [lookupKV]

theorem lookupKV_insertKV_other (m : List (String × String)) {k k' : String}
    (v : String) (h : k' ≠ k) :
    lookupKV (insertKV m k v) k' = lookupKV m k' := by
  unfold insertKV
  by_cases hany : m.any (fun e => decide (e.1 = k)) = true
  · rw [if_pos hany]
    exact lookupKV_map_other v m h
  · rw [if_neg hany, lookupKV_append]
    cases hm : lookupKV m k' with
    | some v0 => simp
    | none => simp [lookupKV, Ne.symm h]

theorem wf_key_unique {l : List Dependency} (hw : DepsWf l)
    {d e : Dependency} (hd : d ∈ l) (he : e ∈ l)
    (hn : d.name = e.name) (ht : d.type = e.type) : d = e := by
  induction l with
  | nil => simp at hd
  | cons x t ih =>
    have hw' := (List.pairwise_cons.1 hw)
    rcases List.mem_cons.1 hd with rfl | hd' <;>
      rcases List.mem_cons.1 he with h2 | h2
    · exact h2.symm ▸ rfl
    · exact absurd ⟨hn, ht⟩ (hw'.1 e h2)
    · exact absurd ⟨hn.symm, ht.symm⟩ (h2 ▸ hw'.1 d hd')
    · exact ih hw'.2 hd' h2

theorem addDep_mem {s : String} {n : String} {v : Option String}
    (l : List Dependency) (ty : DependencyType) (hs : splitDep s = (n, v)) :
    (⟨n, v, ty⟩ : Dependency) ∈ addDep l s ty := by
  unfold addDep
  rw [hs]
  by_cases hany : l.any (fun d => decide (d.name = n ∧ d.type = ty)) = true
  · rw [if_pos hany]
    simp only [List.any_eq_true, decide_eq_true_eq] at hany
    rcases hany with ⟨d, hd, hk⟩
    have : (⟨n, v, ty⟩ : Dependency) =
        (if d.name = n ∧ d.type = ty then { d with version := v } else d) := by
      rw [if_pos hk]
      simp [hk.1, hk.2]
    rw [this]
    exact List.mem_map_of_mem _ hd
  · rw [if_neg hany]
    simp

theorem addDep_mem_other {s : String} {d : Dependency}
    {l : List Dependency} {ty : DependencyType} (hd : d ∈ l)
    (hk : ¬(d.name = (splitDep s).1 ∧ d.type = ty)) :
    d ∈ addDep l s ty := by
  unfold addDep
  by_cases hany :
      l.any (fun e => decide (e.name = (splitDep s).1 ∧ e.type = ty)) = true
  · rw [if_pos hany]
    have : d = (if d.name = (splitDep s).1 ∧ d.type = ty
        then { d with version := (splitDep s).2 } else d) := by rw [if_neg hk]
    rw [this]
    exact List.mem_map_of_mem _ hd
  · rw [if_neg hany]
    simp [hd]

theorem addDep_key_closed {s : String} {d : Dependency}
    {l : List Dependency} {ty : DependencyType} (h : d ∈ addDep l s ty) :
    (∃ d0 ∈ l, d.name = d0.name ∧ d.type = d0.type) ∨
      (d.name = (splitDep s).1 ∧ d.type = ty) := by
  unfold addDep at h
  by_cases hany :
      l.any (fun e => decide (e.name = (splitDep s).1 ∧ e.type = ty)) = true
  · rw [if_pos hany] at h
    rcases List.mem_map.1 h with ⟨d0, hd0, heq⟩
    left
    refine ⟨d0, hd0, ?_⟩
    by_cases hc : d0.name = (splitDep s).1 ∧ d0.type = ty <;>
      simp [← heq, hc]
  · rw [if_neg hany] at h
    rcases List.mem_append.1 h with h | h
    · left
      exact ⟨d, h, rfl, rfl⟩
    · right
      simp only [List.mem_singleton] at h
      simp [h]

theorem addDep_wf {l : List Dependency} (s : String) (ty : DependencyType)
    (hw : DepsWf l) : DepsWf (addDep l s ty) := by
  unfold addDep DepsWf
  by_cases hany :
      l.any (fun e => decide (e.name = (splitDep s).1 ∧ e.type = ty)) = true
  · rw [if_pos hany]
    rw [List.pairwise_map]
    refine hw.imp_of_mem ?_
    intro a b _ _ hr
    by_cases ha : a.name = (splitDep s).1 ∧ a.type = ty <;>
      by_cases hb : b.name = (splitDep s).1 ∧ b.type = ty
    · exact absurd ⟨ha.1.trans hb.1.symm, ha.2.trans hb.2.symm⟩ hr
    · rw [if_pos ha, if_neg hb]
      intro hc
      exact hr ⟨hc.1, hc.2⟩
    · rw [if_neg ha, if_pos hb]
      intro hc
      exact hr ⟨hc.1, hc.2⟩
    · rw [if_neg ha, if_neg hb]
      exact hr
  · rw [if_neg hany]
    rw [List.pairwise_append]
    refine ⟨hw, by simp, ?_⟩
    simp only [List.any_eq_true, decide_eq_true_eq] at hany
    push_neg at hany
    intro a ha b hb
    simp only [List.mem_singleton] at hb
    subst hb
    intro hc
    exact hany a ha hc.1 hc.2

theorem addDep_noop {l : List Dependency} {s : String} {E : Dependency}
    (hw : DepsWf l) (hE : E ∈ l) (hs : splitDep s = (E.name, E.version)) :
    addDep l s E.type = l := by
  unfold addDep
  rw [hs]
  have hany : l.any (fun d => decide (d.name = E.name ∧ d.type = E.type)) =
      true := by
    simp only [List.any_eq_true, decide_eq_true_eq]
    exact ⟨E, hE, rfl, rfl⟩
  rw [if_pos hany]
  have hmap : ∀ d ∈ l,
      (if d.name = E.name ∧ d.type = E.type
       then { d with version := E.version } else d) = d := by
    intro d hd
    by_cases hc : d.name = E.name ∧ d.type = E.type
    · have : d = E := wf_key_unique hw hd hE hc.1 hc.2
      subst this
      simp [if_pos hc]
    · rw [if_neg hc]
  rw [List.map_congr_left hmap]
  simp

theorem filter_peer_map_overwrite (l : List Dependency) (n : String)
    (v : Option String) :
    (l.map (fun d =>
        if d.name = n ∧ d.type = .BUILD then { d with version := v }
        else d)).filter (fun d => decide (d.type = .PEER)) =
      l.filter (fun d => decide (d.type = .PEER)) := by
  induction l with
  | nil => rfl
  | cons e l ih =>
    by_cases hc : e.name = n ∧ e.type = .BUILD
    · have hp : ¬ e.type = DependencyType.PEER := by
        rw [hc.2]; simp
      simp [List.filter_cons, hc, hp, ih]
    · simp only [List.map_cons, if_neg hc]
      by_cases hp : e.type = DependencyType.PEER <;>
        simp [List.filter_cons, hp, ih]

theorem filter_peer_addDep_build (l : List Dependency) (s : String) :
    (addDep l s .BUILD).filter (fun d => decide (d.type = .PEER)) =
      l.filter (fun d => decide (d.type = .PEER)) := by
  unfold addDep
  by_cases hany :
      l.any (fun e => decide (e.name = (splitDep s).1 ∧ e.type = .BUILD)) =
        true
  · rw [if_pos hany]
    exact filter_peer_map_overwrite l (splitDep s).1 (splitDep s).2
  · rw [if_neg hany]
    rw [List.filter_append]
    simp [List.filter_cons]

theorem pinSpec_error {minV : String → Option String} {d : Dependency}
    {e : RenderError} (h : pinSpec minV d = .error e) :
    ∃ n r, e = .resolution n r := by
  cases hv : d.version with
  | none => simp only [pinSpec, hv] at h; simp at h
  | some r =>
    simp only [pinSpec, hv] at h
    by_cases hr : r = ""
    · rw [if_pos hr] at h; simp at h
    · rw [if_neg hr] at h
      cases hm : minV r with
      | none =>
        simp only [hm, Except.error.injEq] at h
        exact ⟨d.name, r, h.symm⟩
      | some v =>
        simp only [hm] at h
        by_cases hv0 : v = ""
        · rw [if_pos hv0] at h
          simp only [Except.error.injEq] at h
          exact ⟨d.name, r, h.symm⟩
        · rw [if_neg hv0] at h; simp at h

theorem pinSpec_ok_key {minV : String → Option String} {d : Dependency}
    {s : String} (hg : goodName d.name = true) (hm : goodMinV minV)
    (h : pinSpec minV d = .ok s) : (splitDep s).1 = d.name := by
  cases hv : d.version with
  | none =>
    simp only [pinSpec, hv, Except.ok.injEq] at h
    rw [← h, splitDep_goodName hg]
  | some r =>
    simp only [pinSpec, hv] at h
    by_cases hr : r = ""
    · rw [if_pos hr] at h
      simp only [Except.ok.injEq] at h
      rw [← h, splitDep_goodName hg]
    · rw [if_neg hr] at h
      cases hmv : minV r with
      | none => simp only [hmv] at h; simp at h
      | some v =>
        simp only [hmv] at h
        by_cases hv0 : v = ""
        · rw [if_pos hv0] at h; simp at h
        · rw [if_neg hv0] at h
          simp only [Except.ok.injEq] at h
          rw [← h, splitDep_pin hg (hm r v hmv).2.2]

theorem pinFold_error_res {minV : String → Option String}
    {ps : List Dependency} {e : RenderError} :
    ∀ {acc : List Dependency}, pinFold minV ps acc = .error e →
      ∃ n r, e = .resolution n r := by
  induction ps with
  | nil => intro acc h; simp [pinFold] at h
  | cons d rest ih =>
    intro acc h
    unfold pinFold at h
    cases hs : pinSpec minV d with
    | error e0 =>
      rw [hs] at h
      simp only [Except.error.injEq] at h
      exact h ▸ pinSpec_error hs
    | ok s =>
      rw [hs] at h
      exact ih h

theorem pinFold_fail {minV : String → Option String} {ps : List Dependency}
    {d : Dependency} {r : String} (hd : d ∈ ps) (hver : d.version = some r)
    (hr : r ≠ "") (hmv : minV r = none) :
    ∀ {acc l' : List Dependency}, pinFold minV ps acc ≠ .ok l' := by
  induction ps with
  | nil => simp at hd
  | cons p rest ih =>
    intro acc l' h
    unfold pinFold at h
    rcases List.mem_cons.1 hd with rfl | hd'
    · rw [show pinSpec minV d = .error (.resolution d.name r) by
        simp only [pinSpec, hver, if_neg hr, hmv]] at h
      simp at h
    · cases hs : pinSpec minV p with
      | error e0 => rw [hs] at h; simp at h
      | ok s =>
        rw [hs] at h
        exact ih hd' h

theorem pinFold_preserve {minV : String → Option String}
    {ps : List Dependency} {E : Dependency} (hm : goodMinV minV)
    (hg : ∀ p ∈ ps, goodName p.name = true)
    (hne : ∀ p ∈ ps, p.name ≠ E.name) :
    ∀ {acc l' : List Dependency}, E ∈ acc →
      pinFold minV ps acc = .ok l' → E ∈ l' := by
  induction ps with
  | nil =>
    intro acc l' hE h
    simp only [pinFold, Except.ok.injEq] at h
    exact h ▸ hE
  | cons p rest ih =>
    intro acc l' hE h
    unfold pinFold at h
    cases hs : pinSpec minV p with
    | error e0 => rw [hs] at h; simp at h
    | ok s =>
      rw [hs] at h
      have hkey : (splitDep s).1 = p.name :=
        pinSpec_ok_key (hg p (by simp)) hm hs
      have hE' : E ∈ addDep acc s .BUILD := by
        refine addDep_mem_other hE ?_
        rw [hkey]
        intro hc
        exact hne p (by simp) (hc.1.symm)
      exact ih (fun q hq => hg q (by simp [hq]))
        (fun q hq => hne q (by simp [hq])) hE' h

theorem pinFold_mem_all {minV : String → Option String}
    {ps : List Dependency} (hm : goodMinV minV)
    (hg : ∀ p ∈ ps, goodName p.name = true)
    (hnd : ps.Pairwise (fun a b => a.name ≠ b.name)) :
    ∀ {acc l' : List Dependency}, pinFold minV ps acc = .ok l' →
      ∀ p ∈ ps, ∃ s, pinSpec minV p = .ok s ∧ (splitDep s).1 = p.name ∧
        (⟨(splitDep s).1, (splitDep s).2, .BUILD⟩ : Dependency) ∈ l' := by
  induction ps with
  | nil => intro acc l' _ p hp; simp at hp
  | cons d rest ih =>
    intro acc l' h p hp
    unfold pinFold at h
    cases hs : pinSpec minV d with
    | error e0 => rw [hs] at h; simp at h
    | ok s0 =>
      rw [hs] at h
      have hw' := List.pairwise_cons.1 hnd
      rcases List.mem_cons.1 hp with rfl | hp'
      · refine ⟨s0, hs, pinSpec_ok_key (hg p (by simp)) hm hs, ?_⟩
        have hms : (⟨(splitDep s0).1, (splitDep s0).2, .BUILD⟩ : Dependency) ∈
            addDep acc s0 .BUILD := addDep_mem _ _ rfl
        refine pinFold_preserve hm (fun q hq => hg q (by simp [hq])) ?_ hms h
        intro q hq
        simp only []
        rw [pinSpec_ok_key (hg p (by simp)) hm hs]
        exact fun hc => hw'.1 q hq hc.symm
      · exact ih (fun q hq => hg q (by simp [hq])) hw'.2 h p hp'

theorem pinFold_wf {minV : String → Option String} {ps : List Dependency} :
    ∀ {acc l' : List Dependency}, DepsWf acc →
      pinFold minV ps acc = .ok l' → DepsWf l' := by
  induction ps with
  | nil =>
    intro acc l' hw h
    simp only [pinFold, Except.ok.injEq] at h
    exact h ▸ hw
  | cons d rest ih =>
    intro acc l' hw h
    unfold pinFold at h
    cases hs : pinSpec minV d with
    | error e0 => rw [hs] at h; simp at h
    | ok s =>
      rw [hs] at h
      exact ih (addDep_wf s .BUILD hw) h

theorem pinFold_filter_peer {minV : String → Option String}
    {ps : List Dependency} :
    ∀ {acc l' : List Dependency}, pinFold minV ps acc = .ok l' →
      l'.filter (fun d => decide (d.type = .PEER)) =
        acc.filter (fun d => decide (d.type = .PEER)) := by
  induction ps with
  | nil =>
    intro acc l' h
    simp only [pinFold, Except.ok.injEq] at h
    rw [h]
  | cons d rest ih =>
    intro acc l' h
    unfold pinFold at h
    cases hs : pinSpec minV d with
    | error e0 => rw [hs] at h; simp at h
    | ok s =>
      rw [hs] at h
      rw [ih h, filter_peer_addDep_build]

theorem pinFold_noop {minV : String → Option String} {ps : List Dependency} :
    ∀ {acc : List Dependency}, DepsWf acc →
      (∀ p ∈ ps, ∃ s, pinSpec minV p = .ok s ∧
        (⟨(splitDep s).1, (splitDep s).2, .BUILD⟩ : Dependency) ∈ acc) →
      pinFold minV ps acc = .ok acc := by
  induction ps with
  | nil => intro acc _ _; rfl
  | cons d rest ih =>
    intro acc hw hmem
    rcases hmem d (by simp) with ⟨s, hok, hin⟩
    have hnoop : addDep acc s .BUILD = acc :=
      addDep_noop hw hin rfl
    simp only [pinFold, hok, hnoop]
    exact ih hw (fun q hq => hmem q (by simp [hq]))

/-- The three role maps a ledger entry's value can be written to. -/
inductive Bucket where
  | runtime
  | dev
  | peer
deriving DecidableEq, Repr

/-- The map bucket each role is written to by the partition loop: BUNDLED
entries are written to the runtime map, and TEST, DEVENV and BUILD all to
the dev map. -/
def bucketOf : DependencyType → Bucket
  | .RUNTIME => .runtime
  | .BUNDLED => .runtime
  | .PEER => .peer
  | .BUILD => .dev
  | .TEST => .dev
  | .DEVENV => .dev

/-- Selects the role map of one bucket out of a rendered snapshot. -/
def bucketMap (o : NpmDeps) : Bucket → List (String × String)
  | .runtime => o.dependencies
  | .dev => o.devDependencies
  | .peer => o.peerDependencies

theorem partFold_cons_ok {L : List Dependency} {d : Dependency}
    {t : List Dependency} {acc out : NpmDeps}
    (h : partFold L (d :: t) acc = .ok out) :
    ∃ acc', partFold L t acc' = .ok out ∧
      (∀ b, bucketMap acc' b =
        if b = bucketOf d.type then
          insertKV (bucketMap acc b) d.name (d.version.getD "*")
        else bucketMap acc b) ∧
      acc'.bundledDependencies =
        (if d.type = .BUNDLED then acc.bundledDependencies ++ [d.name]
         else acc.bundledDependencies) := by
  cases ht : d.type with
  | BUNDLED =>
    by_cases hc :
        L.any (fun e => decide (e.name = d.name ∧ e.type = .PEER)) = true
    · simp only [partFold, ht, hc] at h
      simp at h
    · simp only [partFold, ht, hc] at h
      refine ⟨_, h, ?_, ?_⟩
      · intro b
        cases b <;> simp [bucketMap, bucketOf]
      · simp
  | PEER =>
    simp only [partFold, ht] at h
    refine ⟨_, h, ?_, ?_⟩
    · intro b
      cases b <;> simp [bucketMap, bucketOf]
    · simp
  | RUNTIME =>
    simp only [partFold, ht] at h
    refine ⟨_, h, ?_, ?_⟩
    · intro b
      cases b <;> simp [bucketMap, bucketOf]
    · simp
  | BUILD =>
    simp only [partFold, ht] at h
    refine ⟨_, h, ?_, ?_⟩
    · intro b
      cases b <;> simp [bucketMap, bucketOf]
    · simp
  | TEST =>
    simp only [partFold, ht] at h
    refine ⟨_, h, ?_, ?_⟩
    · intro b
      cases b <;> simp [bucketMap, bucketOf]
    · simp
  | DEVENV =>
    simp only [partFold, ht] at h
    refine ⟨_, h, ?_, ?_⟩
    · intro b
      cases b <;> simp [bucketMap, bucketOf]
    · simp

theorem partFold_ok_lookup {L : List Dependency} {rest : List Dependency} :
    ∀ {acc out : NpmDeps}, partFold L rest acc = .ok out →
      ∀ (b : Bucket) (n : String),
        lookupKV (bucketMap out b) n =
          ((rest.filter
              (fun d => decide (d.name = n ∧ bucketOf d.type = b))).getLast?).elim
            (lookupKV (bucketMap acc b) n)
            (fun d => some (d.version.getD "*")) := by
  induction rest with
  | nil =>
    intro acc out h b n
    simp only [partFold, Except.ok.injEq] at h
    subst h
    simp
  | cons d t ih =>
    intro acc out h b n
    rcases partFold_cons_ok h with ⟨acc', h', hbm, _⟩
    have IH := ih h' b n
    by_cases hpd : d.name = n ∧ bucketOf d.type = b
    · cases hft :
          t.filter (fun d => decide (d.name = n ∧ bucketOf d.type = b)) with
      | nil =>
        rw [List.filter_cons, if_pos (by simp [hpd]), hft]
        simp only [List.getLast?_singleton, Option.elim]
        rw [IH, hft]
        simp only [List.getLast?_nil, Option.elim]
        rw [hbm b, if_pos hpd.2.symm, ← hpd.1, lookupKV_insertKV_self]
      | cons x xs =>
        rw [List.filter_cons, if_pos (by simp [hpd]), hft]
        rw [IH, hft]
        rw [List.getLast?_cons_cons]
        rfl
    · rw [List.filter_cons, if_neg (by simp [hpd])]
      rw [IH]
      have hacc : lookupKV (bucketMap acc' b) n = lookupKV (bucketMap acc b) n := by
        by_cases hb : b = bucketOf d.type
        · have hd : d.name ≠ n := fun hn => hpd ⟨hn, hb.symm⟩
          rw [hbm b, if_pos hb, lookupKV_insertKV_other _ _ (Ne.symm hd)]
        · rw [hbm b, if_neg hb]
      rw [hacc]

theorem partFold_bundled {L : List Dependency} {rest : List Dependency} :
    ∀ {acc out : NpmDeps}, partFold L rest acc = .ok out →
      out.bundledDependencies = acc.bundledDependencies ++
        (rest.filter (fun d => decide (d.type = .BUNDLED))).map
          (fun d => d.name) := by
  induction rest with
  | nil =>
    intro acc out h
    simp only [partFold, Except.ok.injEq] at h
    subst h
    simp
  | cons d t ih =>
    intro acc out h
    rcases partFold_cons_ok h with ⟨acc', h', _, hbd⟩
    rw [ih h', hbd]
    by_cases ht : d.type = .BUNDLED
    · rw [if_pos ht, List.filter_cons, if_pos (by simp [ht])]
      simp [List.append_assoc]
    · rw [if_neg ht, List.filter_cons, if_neg (by simp [ht])]

theorem partFold_error_conflict {L : List Dependency}
    {rest : List Dependency} :
    ∀ {acc : NpmDeps} {e : RenderError}, partFold L rest acc = .error e →
      ∃ n, e = .conflict n := by
  induction rest with
  | nil => intro acc e h; simp [partFold] at h
  | cons d t ih =>
    intro acc e h
    cases ht : d.type with
    | BUNDLED =>
      by_cases hc :
          L.any (fun e => decide (e.name = d.name ∧ e.type = .PEER)) = true
      · simp only [partFold, ht, hc] at h
        simp only [reduceIte, Except.error.injEq] at h
        exact ⟨d.name, h.symm⟩
      · simp only [partFold, ht, hc] at h
        exact ih h
    | PEER => simp only [partFold, ht] at h; exact ih h
    | RUNTIME => simp only [partFold, ht] at h; exact ih h
    | BUILD => simp only [partFold, ht] at h; exact ih h
    | TEST => simp only [partFold, ht] at h; exact ih h
    | DEVENV => simp only [partFold, ht] at h; exact ih h

theorem partFold_conflict_not_ok {L : List Dependency} {d1 d2 : Dependency}
    (h1t : d1.type = .BUNDLED) (h2 : d2 ∈ L) (h2n : d2.name = d1.name)
    (h2t : d2.type = .PEER) :
    ∀ {rest : List Dependency} {acc out : NpmDeps}, d1 ∈ rest →
      partFold L rest acc ≠ .ok out := by
  intro rest
  induction rest with
  | nil => intro acc out h; simp at h
  | cons p t ih =>
    intro acc out hm h
    rcases List.mem_cons.1 hm with rfl | hm'
    · have hany :
          L.any (fun e => decide (e.name = d1.name ∧ e.type = .PEER)) =
            true := by
        simp only [List.any_eq_true, decide_eq_true_eq]
        exact ⟨d2, h2, h2n, h2t⟩
      simp only [partFold, h1t, hany] at h
      simp at h
    · rcases partFold_cons_ok h with ⟨acc', h', _, _⟩
      exact ih hm' h'

theorem readDeps_mem {user cur : List (String × String)} {n v : String}
    (h : (n, v) ∈ user) : (n, reconcile cur n v) ∈ readDeps user cur := by
  unfold readDeps
  exact List.mem_map.2 ⟨(n, v), h, rfl⟩

theorem lookupKV_readDeps (user cur : List (String × String)) (n : String) :
    lookupKV (readDeps user cur) n =
      (lookupKV user n).map (fun v => reconcile cur n v) := by
  induction user with
  | nil => rfl
  | cons e rest ih =>
    unfold readDeps at ih ⊢
    by_cases he : e.1 = n
    · simp [lookupKV, he]
    · simp only [List.map_cons, lookupKV, if_neg he]
      exact ih

theorem wf_peer_names_distinct {l : List Dependency} (hw : DepsWf l) :
    (l.filter (fun d => decide (d.type = .PEER))).Pairwise
      (fun a b => a.name ≠ b.name) := by
  have hp : (l.filter (fun d => decide (d.type = .PEER))).Pairwise
      (fun a b => ¬(a.name = b.name ∧ a.type = b.type)) :=
    hw.sublist (List.filter_sublist l)
  refine hp.imp_of_mem ?_
  intro a b ha hb hr hn
  have ha' := (List.mem_filter.1 ha).2
  have hb' := (List.mem_filter.1 hb).2
  simp only [decide_eq_true_eq] at ha' hb'
  exact hr ⟨hn, ha'.trans hb'.symm⟩

theorem wf_filter_single {l : List Dependency} {E : Dependency}
    (P : Dependency → Bool) (hw : DepsWf l) (hE : E ∈ l) (hPE : P E = true)
    (hall : ∀ d ∈ l, P d = true → d.name = E.name ∧ d.type = E.type) :
    l.filter P = [E] := by
  induction l with
  | nil => simp at hE
  | cons x t ih =>
    have hw' := List.pairwise_cons.1 hw
    by_cases hx : P x = true
    · have hkey := hall x (by simp) hx
      have hxE : x = E := by
        rcases List.mem_cons.1 hE with rfl | hEt
        · rfl
        · exact absurd hkey (hw'.1 E hEt)
      subst hxE
      rw [List.filter_cons, if_pos hx]
      have hnil : t.filter P = [] := by
        rw [List.filter_eq_nil_iff]
        intro d hd hPd
        have := hall d (by simp [hd]) hPd
        exact hw'.1 d hd ⟨this.1.symm, this.2.symm⟩
      rw [hnil]
    · have hEt : E ∈ t := by
        rcases List.mem_cons.1 hE with rfl | hEt
        · exact absurd hPE hx
        · exact hEt
      rw [List.filter_cons, if_neg (by simpa using hx)]
      exact ih hw'.2 hEt (fun d hd hPd => hall d (by simp [hd]) hPd)

theorem pinFold_key_closed {minV : String → Option String}
    {ps : List Dependency} :
    ∀ {acc l' : List Dependency}, pinFold minV ps acc = .ok l' →
      ∀ d ∈ l', (∃ d0 ∈ acc, d.name = d0.name ∧ d.type = d0.type) ∨
        d.type = .BUILD := by
  induction ps with
  | nil =>
    intro acc l' h d hd
    simp only [pinFold, Except.ok.injEq] at h
    subst h
    exact .inl ⟨d, hd, rfl, rfl⟩
  | cons p rest ih =>
    intro acc l' h d hd
    unfold pinFold at h
    cases hs : pinSpec minV p with
    | error e0 => rw [hs] at h; simp at h
    | ok s =>
      rw [hs] at h
      rcases ih h d hd with ⟨d0, hd0, hk⟩ | hb
      · rcases addDep_key_closed hd0 with ⟨d1, hd1, hk1⟩ | hnew
        · exact .inl ⟨d1, hd1, hk.1.trans hk1.1, hk.2.trans hk1.2⟩
        · exact .inr (hk.2.trans hnew.2)
      · exact .inr hb

/-- The minimum-version resolver used for concrete scenarios: the caret-16
range resolves to its minimum 16.0.0, everything else is unresolvable. -/
def minVexample : String → Option String :=
  fun r => if r = "^16" then some "16.0.0" else none

/-- The ledger of the spec's end-to-end scenario: addDeps left-pad,
addDevDeps test-lib caret-3, addPeerDeps react caret-16, in that order. -/
def scenarioLedger : List Dependency :=
  addDep (addDep (addDep [] "left-pad" .RUNTIME) "test-lib@^3" .BUILD)
    "react@^16" .PEER

theorem goodMinV_minVexample : goodMinV minVexample := by
  intro r v h
  unfold minVexample at h
  by_cases hr : r = "^16"
  · rw [if_pos hr] at h
    injection h with h'
    subst h'
    refine ⟨by decide, by decide, by decide⟩
  · rw [if_neg hr] at h
    cases h

theorem getLast?_eq_of_all {α : Type} {l : List α} {a : α} (hne : l ≠ [])
    (hall : ∀ x ∈ l, x = a) : l.getLast? = some a := by
  induction l with
  | nil => exact absurd rfl hne
  | cons x t ih =>
    cases t with
    | nil => simp [hall x (by simp)]
    | cons y u =>
      rw [List.getLast?_cons_cons]
      exact ih (by simp) (fun z hz => hall z (by simp [hz]))

theorem lookupKV_mem {m : List (String × String)} {n x : String}
    (h : lookupKV m n = some x) : (n, x) ∈ m := by
  induction m with
  | nil => simp [lookupKV] at h
  | cons e rest ih =>
    unfold lookupKV at h
    by_cases he : e.1 = n
    · rw [if_pos he] at h
      injection h with h'
      rw [← he, ← h']
      simp
    · rw [if_neg he] at h
      exact List.mem_cons_of_mem _ (ih h)

theorem sortedRecord_key_sorted (m : List (String × String)) :
    ((sortedRecord m).map Prod.fst).Sorted (· ≤ ·) := by
  have htrans : ∀ a b c : String × String, decide (a.1 ≤ b.1) = true →
      decide (b.1 ≤ c.1) = true → decide (a.1 ≤ c.1) = true := by
    intro a b c h1 h2
    simp only [decide_eq_true_eq] at h1 h2 ⊢
    exact le_trans h1 h2
  have htotal : ∀ a b : String × String,
      (decide (a.1 ≤ b.1) || decide (b.1 ≤ a.1)) = true := by
    intro a b
    rcases le_total a.1 b.1 with h | h <;> simp [h]
  have hs := List.sorted_mergeSort htrans htotal m
  refine List.pairwise_map.2 ?_
  refine hs.imp ?_
  intro a b h
  simpa using h

theorem keyword_le_trans : ∀ a b c : String, decide (a ≤ b) = true →
    decide (b ≤ c) = true → decide (a ≤ c) = true := by
  intro a b c h1 h2
  simp only [decide_eq_true_eq] at h1 h2 ⊢
  exact le_trans h1 h2

theorem keyword_le_total : ∀ a b : String,
    (decide (a ≤ b) || decide (b ≤ a)) = true := by
  intro a b
  rcases le_total a b with h | h <;> simp [h]

theorem renderKeywords_sorted (st : List String) :
    (renderKeywords st).Sorted (· ≤ ·) := by
  have hs := List.sorted_mergeSort keyword_le_trans keyword_le_total st
  refine hs.imp ?_
  intro a b h
  simpa using h

theorem addKeywords_nodup {st : List String} (ks : List String)
    (h : st.Nodup) : (addKeywords st ks).Nodup := by
  induction ks generalizing st with
  | nil => exact h
  | cons k ks ih =>
    unfold addKeywords
    rw [List.foldl_cons]
    by_cases hk : k ∈ st
    · rw [if_pos hk]
      exact ih h
    · rw [if_neg hk]
      refine ih ?_
      simp [List.nodup_append, h, hk]

theorem addKeywords_mem {k : String} (ks : List String) (st : List String) :
    k ∈ addKeywords st ks ↔ (k ∈ st ∨ k ∈ ks) := by
  induction ks generalizing st with
  | nil => simp [addKeywords]
  | cons k0 ks ih =>
    unfold addKeywords
    rw [List.foldl_cons]
    by_cases hk : k0 ∈ st
    · rw [if_pos hk]
      have := ih st
      unfold addKeywords at this
      rw [this]
      constructor
      · rintro (h | h)
        · exact .inl h
        · exact .inr (by simp [h])
      · rintro (h | h)
        · exact .inl h
        · rcases List.mem_cons.1 h with rfl | h'
          · exact .inl hk
          · exact .inr h'
    · rw [if_neg hk]
      have := ih (st ++ [k0])
      unfold addKeywords at this
      rw [this]
      simp only [List.mem_append, List.mem_singleton, List.mem_cons]
      tauto

/-- C2: when a prior manifest records version cv for a dependency whose
newly computed version is the wildcard, reconciliation keeps cv (a
concrete value: not the wildcard and, matching the JavaScript falsiness
test on the recorded value, not the empty string); an entry carrying an
explicit non-wildcard range keeps that range no matter what the prior
manifest records. -/
theorem c2_reconciliation_keeps_prior (user cur : List (String × String))
    (n v cv : String) (hmem : (n, v) ∈ user)
    (hcur : lookupKV cur n = some cv) :
    (v = "*" → cv ≠ "*" → cv ≠ "" → (n, cv) ∈ readDeps user cur) ∧
    (v ≠ "*" → (n, v) ∈ readDeps user cur) := by
  constructor
  · intro hv hcv hcv'
    have h := @readDeps_mem user cur n v hmem
    have hrec : reconcile cur n v = cv := by
      simp only [reconcile, hcur]
      rw [if_pos ⟨hv, hcv', hcv⟩]
    rwa [hrec] at h
  · intro hv
    have h := @readDeps_mem user cur n v hmem
    have hrec : reconcile cur n v = v := by
      simp only [reconcile, hcur]
      rw [if_neg (fun hc : v = "*" ∧ cv ≠ "" ∧ cv ≠ "*" => hv hc.1)]
    rwa [hrec] at h

theorem c2_witness :
    ("foo", "^1.2.0") ∈ readDeps [("foo", "*")] [("foo", "^1.2.0")] :=
  (c2_reconciliation_keeps_prior [("foo", "*")] [("foo", "^1.2.0")] "foo"
    "*" "^1.2.0" (by decide) (by decide)).1 rfl (by decide) (by decide)

/-- C5: the dependency maps produced by the post-install resolution step
are always sorted by key, whatever the input order was. -/
theorem c5_resolved_maps_sorted (installed : String → Option String)
    (current user : List (String × String)) :
    (((resolveDeps installed current user).1).map Prod.fst).Sorted
      (· ≤ ·) := by
  unfold resolveDeps
  exact sortedRecord_key_sorted _

/-- C7: rendering a task invocation in PROJEN mode yields the projen
command followed by the task name; in SHELL mode npmScriptForTask yields
the task's own joined shell command; any unrecognized mode is a fatal
configuration error, in npmScriptForTask and runTaskCommand alike. -/
theorem c7_task_invocation_modes (projenCommand runScriptCommand : String)
    (task : Task) (mode : String) :
    npmScriptForTask NpmTaskExecution.PROJEN projenCommand task =
      .ok (projenCommand ++ " " ++ task.name) ∧
    npmScriptForTask NpmTaskExecution.SHELL projenCommand task =
      .ok task.toShellCommand ∧
    runTaskCommand NpmTaskExecution.PROJEN projenCommand runScriptCommand
      task = .ok (projenCommand ++ " " ++ task.name) ∧
    (mode ≠ NpmTaskExecution.PROJEN → mode ≠ NpmTaskExecution.SHELL →
      npmScriptForTask mode projenCommand task =
        .error (.configuration mode) ∧
      runTaskCommand mode projenCommand runScriptCommand task =
        .error (.configuration mode)) := by
  refine ⟨?_, ?_, ?_, ?_⟩
  · simp [npmScriptForTask]
  · simp [npmScriptForTask, NpmTaskExecution.PROJEN, NpmTaskExecution.SHELL]
  · simp [runTaskCommand]
  · intro h1 h2
    constructor <;> simp [npmScriptForTask, runTaskCommand, h1, h2]

theorem c7_witness :
    npmScriptForTask "bogus" "npx projen" ⟨"compile", "tsc"⟩ =
      .error (.configuration "bogus") ∧
    runTaskCommand "bogus" "npx projen" "yarn run" ⟨"compile", "tsc"⟩ =
      .error (.configuration "bogus") :=
  (c7_task_invocation_modes "npx projen" "yarn run" ⟨"compile", "tsc"⟩
    "bogus").2.2.2 (by decide) (by decide)

/-- C9: with library dependencies disallowed, addPeerDeps and
addBundledDeps fail exactly when called with at least one dependency (an
empty call succeeds and leaves the ledger unchanged), while addDeps and
addDevDeps have no such check and always succeed. -/
theorem c9_library_dependency_guard (ledger : List Dependency)
    (deps : List String) :
    ((∃ e, addPeerDeps false ledger deps = .error e) ↔ deps ≠ []) ∧
    ((∃ e, addBundledDeps false ledger deps = .error e) ↔ deps ≠ []) ∧
    addPeerDeps false ledger [] = .ok ledger ∧
    addBundledDeps false ledger [] = .ok ledger ∧
    (∃ l', addDeps ledger deps = .ok l') ∧
    (∃ l', addDevDeps ledger deps = .ok l') := by
  have hcase : ∀ ds : List String, ds ≠ [] → ds.length ≠ 0 := by
    intro ds h hlen
    exact h (List.length_eq_zero.1 hlen)
  refine ⟨?_, ?_, ?_, ?_, ⟨_, rfl⟩, ⟨_, rfl⟩⟩
  · constructor
    · rintro ⟨e, he⟩ rfl
      simp [addPeerDeps] at he
    · intro hne
      refine ⟨"cannot add peer dependencies to an APP project: " ++
        String.intercalate "," ((List.range deps.length).map toString), ?_⟩
      unfold addPeerDeps
      rw [if_pos ⟨hcase deps hne, by decide⟩]
  · constructor
    · rintro ⟨e, he⟩ rfl
      simp [addBundledDeps] at he
    · intro hne
      refine ⟨"cannot add bundled dependencies to an APP project: " ++
        String.intercalate "," deps, ?_⟩
      unfold addBundledDeps
      rw [if_pos ⟨hcase deps hne, by decide⟩]
  · simp [addPeerDeps]
  · simp [addBundledDeps]

theorem c9_witness :
    (∃ e, addPeerDeps false [] ["react"] = .error e) ∧
    addBundledDeps false [] [] = .ok [] :=
  ⟨(c9_library_dependency_guard [] ["react"]).1.mpr (by decide),
   (c9_library_dependency_guard [] []).2.2.2.1⟩

/-- C10: keywords are deduplicated and rendered sorted: the rendered list
holds each added keyword exactly once (it is duplicate-free, sorted
ascending, and its members are exactly the added keywords), and two call
sequences adding the same set of keywords render identically, so repeated
or reordered additions do not change the rendered list. -/
theorem c10_keywords_dedup_sorted (ks1 ks2 : List String) :
    (renderKeywords (addKeywords [] ks1)).Nodup ∧
    (renderKeywords (addKeywords [] ks1)).Sorted (· ≤ ·) ∧
    (∀ k, k ∈ renderKeywords (addKeywords [] ks1) ↔ k ∈ ks1) ∧
    ((∀ k, k ∈ ks1 ↔ k ∈ ks2) →
      renderKeywords (addKeywords [] ks1) =
        renderKeywords (addKeywords [] ks2)) := by
  have hperm : ∀ ks : List String,
      List.Perm (renderKeywords (addKeywords [] ks)) (addKeywords [] ks) :=
    fun ks => List.mergeSort_perm (addKeywords [] ks) _
  have hnd : ∀ ks : List String, (addKeywords [] ks).Nodup :=
    fun ks => addKeywords_nodup ks List.nodup_nil
  have hmem : ∀ (ks : List String) (k : String),
      k ∈ renderKeywords (addKeywords [] ks) ↔ k ∈ ks := by
    intro ks k
    rw [(hperm ks).mem_iff, addKeywords_mem]
    simp
  refine ⟨?_, renderKeywords_sorted _, hmem ks1, ?_⟩
  · exact ((hperm ks1).nodup_iff).2 (hnd ks1)
  · intro hext
    have hp : List.Perm (addKeywords [] ks1) (addKeywords [] ks2) := by
      rw [List.perm_ext_iff_of_nodup (hnd ks1) (hnd ks2)]
      intro a
      rw [addKeywords_mem, addKeywords_mem]
      simp [hext a]
    have hp' : List.Perm (renderKeywords (addKeywords [] ks1))
        (renderKeywords (addKeywords [] ks2)) :=
      ((hperm ks1).trans hp).trans (hperm ks2).symm
    exact List.eq_of_perm_of_sorted hp' (renderKeywords_sorted _)
      (renderKeywords_sorted _)

theorem c10_witness :
    renderKeywords (addKeywords [] ["zeta", "alpha", "zeta"]) =
      renderKeywords (addKeywords [] ["alpha", "zeta"]) :=
  (c10_keywords_dedup_sorted ["zeta", "alpha", "zeta"]
    ["alpha", "zeta"]).2.2.2 (by intro k; simp; tauto)

theorem caret_ne_empty (iv : String) : "^" ++ iv ≠ "" := by
  intro h
  have h2 := congrArg String.data h
  rw [String.data_append] at h2
  have h3 : "^".data = ['^'] := rfl
  rw [h3] at h2
  simp at h2

theorem resolveStep_eq (installed : String → Option String)
    (acc : List (String × String) × List String) (e : String × String) :
    resolveStep installed acc e =
      (insertKV acc.1 e.1 (desiredVersionOf installed e), acc.2) := by
  unfold resolveStep
  rw [if_neg ?_]
  rintro ⟨h2, hd⟩
  unfold desiredVersionOf at hd
  rw [if_pos h2] at hd
  cases hi : installed e.1 with
  | some iv =>
    rw [hi] at hd
    exact caret_ne_empty iv hd
  | none =>
    rw [hi, h2] at hd
    simp at hd

theorem resolveFold_split (installed : String → Option String) :
    ∀ (u : List (String × String)) (m : List (String × String))
      (w : List String),
      u.foldl (resolveStep installed) (m, w) =
        (u.foldl (fun m e => insertKV m e.1 (desiredVersionOf installed e))
          m, w) := by
  intro u
  induction u with
  | nil => intro m w; rfl
  | cons e u ih =>
    intro m w
    rw [List.foldl_cons, resolveStep_eq, List.foldl_cons]
    exact ih _ w

theorem foldl_insert_skip (f : String × String → String) {n : String} :
    ∀ (u : List (String × String)) (acc : List (String × String)),
      (∀ e ∈ u, e.1 ≠ n) →
      lookupKV (u.foldl (fun m e => insertKV m e.1 (f e)) acc) n =
        lookupKV acc n := by
  intro u
  induction u with
  | nil => intro acc _; rfl
  | cons e u ih =>
    intro acc h
    rw [List.foldl_cons, ih _ (fun e' he' => h e' (by simp [he'])),
      lookupKV_insertKV_other _ _ (Ne.symm (h e (by simp)))]

theorem foldl_insert_lookup (f : String × String → String) :
    ∀ {user : List (String × String)} {n v : String}
      (acc : List (String × String)), (n, v) ∈ user →
      (user.map Prod.fst).Nodup →
      lookupKV (user.foldl (fun m e => insertKV m e.1 (f e)) acc) n =
        some (f (n, v)) := by
  intro user
  induction user with
  | nil => intro n v acc h _; simp at h
  | cons e rest ih =>
    intro n v acc hmem hnd
    rw [List.map_cons, List.nodup_cons] at hnd
    rcases List.mem_cons.1 hmem with rfl | hmem'
    · rw [List.foldl_cons]
      have hout : ∀ e' ∈ rest, e'.1 ≠ (n, v).1 := by
        intro e' he' hc
        exact hnd.1 (hc ▸ List.mem_map.2 ⟨e', he', rfl⟩)
      rw [foldl_insert_skip f rest _ hout, lookupKV_insertKV_self]
    · rw [List.foldl_cons]
      exact ih _ hmem' hnd.2

/-- C6 counterexample: at a wildcard entry whose installed-version lookup
fails, the post-install resolution keeps the entry as the wildcard but
emits no warning at all (the empty warning list), contradicting the
claim that a warning is emitted. -/
theorem c6_counterexample :
    resolveDeps (fun _ => none) [] [("foo", "*")] = ([("foo", "*")], []) := by
  unfold resolveDeps
  rw [resolveFold_split]
  show (sortedRecord [("foo", "*")], ([] : List String)) =
    ([("foo", "*")], [])
  unfold sortedRecord
  rw [List.mergeSort_singleton]

/-- C6 (amended): every entry still carrying the wildcard is rewritten to
a caret range at the installed package's discovered version when the
lookup succeeds; when the lookup fails the entry is kept as the wildcard
and the run is not aborted (resolution is total), but no warning is ever
emitted, because the falsiness guard that would emit one can never fire. -/
theorem c6_wildcard_resolution (installed : String → Option String)
    (current user : List (String × String)) (n : String)
    (hnd : (user.map Prod.fst).Nodup) :
    (∀ iv, (n, "*") ∈ user → installed n = some iv →
      (n, "^" ++ iv) ∈ (resolveDeps installed current user).1) ∧
    ((n, "*") ∈ user → installed n = none →
      (n, "*") ∈ (resolveDeps installed current user).1) ∧
    (resolveDeps installed current user).2 = [] := by
  have hsplit := resolveFold_split installed user [] []
  have hfst : (resolveDeps installed current user).1 =
      sortedRecord (user.foldl
        (fun m e => insertKV m e.1 (desiredVersionOf installed e)) []) := by
    unfold resolveDeps
    rw [hsplit]
  have hmemof : ∀ x : String × String,
      x ∈ (resolveDeps installed current user).1 ↔
        x ∈ user.foldl
          (fun m e => insertKV m e.1 (desiredVersionOf installed e)) [] := by
    intro x
    rw [hfst]
    exact (List.mergeSort_perm _ _).mem_iff
  refine ⟨?_, ?_, ?_⟩
  · intro iv hmem hres
    have hl := foldl_insert_lookup (desiredVersionOf installed) [] hmem hnd
    have hval : desiredVersionOf installed (n, "*") = "^" ++ iv := by
      simp [desiredVersionOf, hres]
    rw [hval] at hl
    exact (hmemof _).2 (lookupKV_mem hl)
  · intro hmem hres
    have hl := foldl_insert_lookup (desiredVersionOf installed) [] hmem hnd
    have hval : desiredVersionOf installed (n, "*") = "*" := by
      simp [desiredVersionOf, hres]
    rw [hval] at hl
    exact (hmemof _).2 (lookupKV_mem hl)
  · unfold resolveDeps
    rw [hsplit]

theorem c6_witness :
    ("react", "^16.14.0") ∈
      (resolveDeps (fun m => if m = "react" then some "16.14.0" else none)
        [] [("react", "*"), ("left-pad", "^1")]).1 ∧
    (resolveDeps (fun m => if m = "react" then some "16.14.0" else none)
      [] [("react", "*"), ("left-pad", "^1")]).2 = [] :=
  ⟨(c6_wildcard_resolution
      (fun m => if m = "react" then some "16.14.0" else none) []
      [("react", "*"), ("left-pad", "^1")] "react" (by decide)).1 "16.14.0"
      (by decide) (by decide),
   (c6_wildcard_resolution
      (fun m => if m = "react" then some "16.14.0" else none) []
      [("react", "*"), ("left-pad", "^1")] "react" (by decide)).2.2⟩

/-- C3: the partition places every ledger entry's name in its role's
output bucket; a BUNDLED entry lands both in the bundled list and in the
runtime dependency map; and whenever any name is recorded both as BUNDLED
and as PEER, in either order, the partition fails with a conflict error. -/
theorem c3_partition_and_conflict (ledger : List Dependency) :
    (∀ out, partitionDeps ledger = .ok out →
      ∀ dep ∈ ledger,
        (lookupKV (bucketMap out (bucketOf dep.type)) dep.name).isSome ∧
        (dep.type = .BUNDLED → dep.name ∈ out.bundledDependencies ∧
          (lookupKV out.dependencies dep.name).isSome)) ∧
    ((∃ d1 ∈ ledger, ∃ d2 ∈ ledger, d1.name = d2.name ∧
        d1.type = .BUNDLED ∧ d2.type = .PEER) →
      ∃ n, partitionDeps ledger = .error (.conflict n)) := by
  constructor
  · intro out hok dep hdep
    have hlk := partFold_ok_lookup hok (bucketOf dep.type) dep.name
    have hfil : dep ∈ ledger.filter
        (fun d => decide (d.name = dep.name ∧
          bucketOf d.type = bucketOf dep.type)) :=
      List.mem_filter.2 ⟨hdep, by simp⟩
    have hne : ledger.filter
        (fun d => decide (d.name = dep.name ∧
          bucketOf d.type = bucketOf dep.type)) ≠ [] :=
      List.ne_nil_of_mem hfil
    have hmain : (lookupKV (bucketMap out (bucketOf dep.type))
        dep.name).isSome := by
      rw [hlk]
      cases hgl : (ledger.filter
          (fun d => decide (d.name = dep.name ∧
            bucketOf d.type = bucketOf dep.type))).getLast? with
      | none => exact absurd (List.getLast?_eq_none_iff.1 hgl) hne
      | some d => simp [Option.elim]
    refine ⟨hmain, ?_⟩
    intro hb
    constructor
    · rw [partFold_bundled hok]
      simp only [List.nil_append]
      exact List.mem_map.2 ⟨dep, List.mem_filter.2 ⟨hdep, by simp [hb]⟩, rfl⟩
    · have : bucketOf dep.type = .runtime := by rw [hb]; rfl
      rw [this] at hmain
      exact hmain
  · rintro ⟨d1, hd1, d2, hd2, hn, ht1, ht2⟩
    cases hp : partitionDeps ledger with
    | ok out =>
      exact absurd hp
        (partFold_conflict_not_ok ht1 hd2 hn.symm ht2 hd1)
    | error e =>
      rcases partFold_error_conflict hp with ⟨n, rfl⟩
      exact ⟨n, rfl⟩

theorem c3_witness :
    (∃ n, partitionDeps [⟨"baz", none, .PEER⟩, ⟨"baz", none, .BUNDLED⟩] =
      .error (.conflict n)) ∧
    ("left-pad" ∈ ([("left-pad", "*")] : List (String × String)).map
      Prod.fst) :=
  ⟨(c3_partition_and_conflict
      [⟨"baz", none, .PEER⟩, ⟨"baz", none, .BUNDLED⟩]).2
      ⟨⟨"baz", none, .BUNDLED⟩, by decide, ⟨"baz", none, .PEER⟩, by decide,
        rfl, rfl, rfl⟩,
   by decide⟩

/-- C8: a ledger entry with no explicit version range renders as the
wildcard in its role's output bucket (when no other entry writes the same
key of that bucket), and the end-to-end scenario with no prior manifest
renders runtime left-pad as the wildcard, peer react caret-16, and dev
test-lib caret-3 plus react pinned to 16.0.0. -/
theorem c8_wildcard_defaulting (ledger : List Dependency) (dep : Dependency)
    (out : NpmDeps) (hmem : dep ∈ ledger) (hver : dep.version = none)
    (huniq : ∀ d ∈ ledger, d.name = dep.name →
      bucketOf d.type = bucketOf dep.type → d = dep)
    (hok : partitionDeps ledger = .ok out) :
    lookupKV (bucketMap out (bucketOf dep.type)) dep.name = some "*" ∧
    renderDependencies minVexample true scenarioLedger none =
      .ok (scenarioLedger ++ [⟨"react", some "16.0.0", .BUILD⟩],
        ⟨[("left-pad", "*")], [("test-lib", "^3"), ("react", "16.0.0")],
          [("react", "^16")], []⟩) := by
  constructor
  · have hlk := partFold_ok_lookup hok (bucketOf dep.type) dep.name
    have hfil : dep ∈ ledger.filter
        (fun d => decide (d.name = dep.name ∧
          bucketOf d.type = bucketOf dep.type)) :=
      List.mem_filter.2 ⟨hmem, by simp⟩
    have hall : ∀ x ∈ ledger.filter
        (fun d => decide (d.name = dep.name ∧
          bucketOf d.type = bucketOf dep.type)), x = dep := by
      intro x hx
      have hx' := List.mem_filter.1 hx
      have hc := hx'.2
      simp only [decide_eq_true_eq] at hc
      exact huniq x hx'.1 hc.1 hc.2
    rw [hlk, getLast?_eq_of_all (List.ne_nil_of_mem hfil) hall]
    simp [Option.elim, hver]
  · rfl

theorem c8_witness :
    lookupKV
      (bucketMap
        ⟨[("left-pad", "*")], [("test-lib", "^3")], [("react", "^16")], []⟩
        (bucketOf DependencyType.RUNTIME)) "left-pad" = some "*" :=
  (c8_wildcard_defaulting scenarioLedger ⟨"left-pad", none, .RUNTIME⟩
    ⟨[("left-pad", "*")], [("test-lib", "^3")], [("react", "^16")], []⟩
    (by decide) rfl (by decide) rfl).1

theorem reconcile_ne_star {cur : List (String × String)} {n v : String}
    (hv : v ≠ "*") : reconcile cur n v = v := by
  unfold reconcile
  cases hc : lookupKV cur n with
  | none => rfl
  | some cv =>
    show (if v = "*" ∧ cv ≠ "" ∧ cv ≠ "*" then cv else v) = v
    rw [if_neg (fun hc : v = "*" ∧ cv ≠ "" ∧ cv ≠ "*" => hv hc.1)]

/-- C1: with peer pinning enabled (option unset or true), rendering adds,
for every PEER entry declaring a version range, a synthetic BUILD
dependency on the same package pinned to exactly the minimum version of
the range: if the range has no resolvable minimum the rendering fails
with a resolution error, and otherwise any successful rendering both
contains the pinned entry in the resulting ledger and maps the package to
the pinned minimum in the rendered dev dependencies (the ledger is
well-formed, peer names are well-formed, and no same-named TEST or DEVENV
entry writes the same dev bucket). -/
theorem c1_peer_pinning (minV : String → Option String) (popt : Option Bool)
    (ledger : List Dependency) (prior : Option PriorManifest)
    (dep : Dependency) (r : String)
    (hm : goodMinV minV) (hw : DepsWf ledger)
    (hg : ∀ d ∈ ledger, d.type = .PEER → goodName d.name = true)
    (hpin : pinnedDevDependencyFlag popt = true)
    (hdep : dep ∈ ledger) (hty : dep.type = .PEER)
    (hver : dep.version = some r) (hr : r ≠ "")
    (hnodev : ∀ d ∈ ledger, d.name = dep.name →
      d.type ≠ .TEST ∧ d.type ≠ .DEVENV) :
    (minV r = none →
      ∃ n rr, renderDependencies minV (pinnedDevDependencyFlag popt) ledger
        prior = .error (.resolution n rr)) ∧
    (∀ v, minV r = some v →
      ∀ l' out, renderDependencies minV (pinnedDevDependencyFlag popt)
          ledger prior = .ok (l', out) →
        (⟨dep.name, some v, .BUILD⟩ : Dependency) ∈ l' ∧
        lookupKV out.devDependencies dep.name = some v) := by
  rw [hpin]
  have hdepf : dep ∈ ledger.filter (fun d => decide (d.type = .PEER)) :=
    List.mem_filter.2 ⟨hdep, by simp [hty]⟩
  constructor
  · intro hmv
    cases hpp : pinPeers minV ledger with
    | ok l0 =>
      unfold pinPeers at hpp
      exact absurd hpp (pinFold_fail hdepf hver hr hmv)
    | error e =>
      rcases pinFold_error_res hpp with ⟨n, rr, rfl⟩
      refine ⟨n, rr, ?_⟩
      simp only [renderDependencies, reduceIte, hpp]
  · intro v hmv l' out hok
    cases hpp : pinPeers minV ledger with
    | error e =>
      simp only [renderDependencies, reduceIte, hpp] at hok
      simp at hok
    | ok l0 =>
      simp only [renderDependencies, reduceIte, hpp] at hok
      cases hpart : partitionDeps l0 with
      | error e =>
        simp only [hpart] at hok
        simp at hok
      | ok out0 =>
        simp only [hpart] at hok
        have hgq : ∀ p ∈ ledger.filter (fun d => decide (d.type = .PEER)),
            goodName p.name = true := by
          intro p hp
          have hp' := List.mem_filter.1 hp
          exact hg p hp'.1 (by simpa using hp'.2)
        have hnd := wf_peer_names_distinct hw
        have hppf := hpp
        unfold pinPeers at hppf
        rcases pinFold_mem_all hm hgq hnd hppf dep hdepf with
          ⟨s, hsok, hskey, hsmem⟩
        have hveq : v ≠ "" := (hm r v hmv).1
        have hsval : pinSpec minV dep = .ok (dep.name ++ "@" ++ v) := by
          simp only [pinSpec, hver, if_neg hr, hmv, if_neg hveq]
        have hs_eq : dep.name ++ "@" ++ v = s := by
          rw [hsval] at hsok
          injection hsok
        have hsplit : splitDep s = (dep.name, some v) := by
          rw [← hs_eq]
          exact splitDep_pin (hg dep hdep hty) (hm r v hmv).2.2
        rw [hsplit] at hsmem
        have hE : (⟨dep.name, some v, .BUILD⟩ : Dependency) ∈ l0 := hsmem
        have hwf0 : DepsWf l0 := pinFold_wf hw hppf
        have hnodev0 : ∀ d ∈ l0, d.name = dep.name →
            d.type ≠ .TEST ∧ d.type ≠ .DEVENV := by
          intro d hd hn
          rcases pinFold_key_closed hppf d hd with ⟨d0, hd0, hk⟩ | hb
          · have h0 := hnodev d0 hd0 (by rw [← hk.1, hn])
            constructor
            · intro hc
              exact h0.1 (by rw [← hk.2, hc])
            · intro hc
              exact h0.2 (by rw [← hk.2, hc])
          · rw [hb]
            exact ⟨by simp, by simp⟩
        have hall : ∀ d ∈ l0,
            (fun d : Dependency =>
              decide (d.name = dep.name ∧ bucketOf d.type = .dev)) d =
                true →
            d.name = (⟨dep.name, some v, .BUILD⟩ : Dependency).name ∧
              d.type = (⟨dep.name, some v, .BUILD⟩ : Dependency).type := by
          intro d hd hPd
          simp only [decide_eq_true_eq] at hPd
          have hnod := hnodev0 d hd hPd.1
          refine ⟨hPd.1, ?_⟩
          cases hdt : d.type with
          | BUILD => rfl
          | TEST => exact absurd hdt hnod.1
          | DEVENV => exact absurd hdt hnod.2
          | RUNTIME => rw [hdt] at hPd; exact absurd hPd.2 (by simp [bucketOf])
          | BUNDLED => rw [hdt] at hPd; exact absurd hPd.2 (by simp [bucketOf])
          | PEER => rw [hdt] at hPd; exact absurd hPd.2 (by simp [bucketOf])
        have hfilter := wf_filter_single
          (fun d : Dependency =>
            decide (d.name = dep.name ∧ bucketOf d.type = .dev))
          hwf0 hE (by simp [bucketOf]) hall
        have hlk := partFold_ok_lookup hpart Bucket.dev dep.name
        rw [hfilter] at hlk
        simp only [List.getLast?_singleton, Option.elim, Option.getD] at hlk
        have hdev0 : lookupKV out0.devDependencies dep.name = some v := hlk
        have hvstar : v ≠ "*" := (hm r v hmv).2.1
        cases prior with
        | none =>
          simp only [Except.ok.injEq, Prod.mk.injEq] at hok
          obtain ⟨rfl, rfl⟩ := hok
          exact ⟨hE, hdev0⟩
        | some pkg =>
          simp only [Except.ok.injEq, Prod.mk.injEq] at hok
          obtain ⟨rfl, rfl⟩ := hok
          refine ⟨hE, ?_⟩
          show lookupKV (readDeps out0.devDependencies pkg.devDependencies)
            dep.name = some v
          rw [lookupKV_readDeps, hdev0]
          simp only [Option.map]
          rw [reconcile_ne_star hvstar]

theorem c1_witness :
    (⟨"react", some "16.0.0", .BUILD⟩ : Dependency) ∈
      scenarioLedger ++ [⟨"react", some "16.0.0", .BUILD⟩] ∧
    lookupKV [("test-lib", "^3"), ("react", "16.0.0")] "react" =
      some "16.0.0" :=
  (c1_peer_pinning minVexample none scenarioLedger none
    ⟨"react", some "^16", .PEER⟩ "^16" goodMinV_minVexample (by decide)
    (by decide) rfl (by decide) rfl rfl (by decide) (by decide)).2
    "16.0.0" rfl
    (scenarioLedger ++ [(⟨"react", some "16.0.0", .BUILD⟩ : Dependency)])
    ⟨[("left-pad", "*")], [("test-lib", "^3"), ("react", "16.0.0")],
      [("react", "^16")], []⟩ rfl

theorem renderDependencies_ok_ledger {minV : String → Option String}
    {pinned : Bool} {ledger : List Dependency} {prior : Option PriorManifest}
    {l' : List Dependency} {out : NpmDeps}
    (h : renderDependencies minV pinned ledger prior = .ok (l', out)) :
    (if pinned then pinPeers minV ledger else .ok ledger) = .ok l' := by
  unfold renderDependencies at h
  cases hpin : (if pinned then pinPeers minV ledger else Except.ok ledger) with
  | error e =>
    simp only [hpin] at h
    exact absurd h (by simp)
  | ok l0 =>
    simp only [hpin] at h
    cases hpart : partitionDeps l0 with
    | error e =>
      simp only [hpart] at h
      exact absurd h (by simp)
    | ok out0 =>
      simp only [hpart] at h
      cases prior with
      | none =>
        simp only [Except.ok.injEq, Prod.mk.injEq] at h
        rw [← h.1]
      | some pkg =>
        simp only [Except.ok.injEq, Prod.mk.injEq] at h
        rw [← h.1]

theorem renderDependencies_idem (minV : String → Option String)
    (pinned : Bool) (ledger : List Dependency) (prior : Option PriorManifest)
    (l' : List Dependency) (out : NpmDeps)
    (hm : goodMinV minV) (hw : DepsWf ledger)
    (hg : ∀ d ∈ ledger, d.type = .PEER → goodName d.name = true)
    (h : renderDependencies minV pinned ledger prior = .ok (l', out)) :
    renderDependencies minV pinned l' prior = .ok (l', out) := by
  have hpin := renderDependencies_ok_ledger h
  cases pinned with
  | false =>
    simp only [Bool.false_eq_true, reduceIte, Except.ok.injEq] at hpin
    subst hpin
    exact h
  | true =>
    simp only [reduceIte] at hpin
    have hppf := hpin
    unfold pinPeers at hppf
    have hgq : ∀ p ∈ ledger.filter (fun d => decide (d.type = .PEER)),
        goodName p.name = true := by
      intro p hp
      have hp' := List.mem_filter.1 hp
      exact hg p hp'.1 (by simpa using hp'.2)
    have hnd := wf_peer_names_distinct hw
    have hmem_all := pinFold_mem_all hm hgq hnd hppf
    have hwf0 := pinFold_wf hw hppf
    have hfp : l'.filter (fun d => decide (d.type = .PEER)) =
        ledger.filter (fun d => decide (d.type = .PEER)) :=
      pinFold_filter_peer hppf
    have hpp2 : pinPeers minV l' = .ok l' := by
      unfold pinPeers
      rw [hfp]
      refine pinFold_noop hwf0 ?_
      intro p hp
      rcases hmem_all p hp with ⟨s, hok, _, hmem⟩
      exact ⟨s, hok, hmem⟩
    simp only [renderDependencies, reduceIte, hpin] at h
    simp only [renderDependencies, reduceIte, hpp2]
    exact h

/-- C4: one full synthesis pass is idempotent: if a pass over a
well-formed configuration succeeds, running the pass again on the
resulting state succeeds with the identical rendered dependency snapshot,
identical rendered script command strings, and the identical state, so
nothing is duplicated or reordered by the second run. -/
theorem c4_synthesis_idempotent (minV : String → Option String)
    (prior : Option PriorManifest) (st st' : PkgState) (deps : NpmDeps)
    (scripts : List (String × String))
    (hm : goodMinV minV) (hw : DepsWf st.ledger)
    (hg : ∀ d ∈ st.ledger, d.type = .PEER → goodName d.name = true)
    (hrun : synthOnce minV prior st = .ok (st', deps, scripts)) :
    synthOnce minV prior st' = .ok (st', deps, scripts) := by
  cases hrd : renderDependencies minV st.pinned st.ledger prior with
  | error e =>
    unfold synthOnce at hrun
    rw [hrd] at hrun
    simp [bind, Except.bind] at hrun
  | ok p =>
    obtain ⟨l0, d0⟩ := p
    unfold synthOnce at hrun
    rw [hrd] at hrun
    cases hrs : renderScripts st.npmTaskExecution st.projenCommand
        st.scripts st.tasks with
    | error e =>
      rw [hrs] at hrun
      simp [bind, Except.bind] at hrun
    | ok sc =>
      rw [hrs] at hrun
      simp only [bind, Except.bind, pure, Except.pure, Except.ok.injEq,
        Prod.mk.injEq] at hrun
      obtain ⟨h1, h2, h3⟩ := hrun
      subst h1 h2 h3
      have hidem := renderDependencies_idem minV st.pinned st.ledger prior
        l0 d0 hm hw hg hrd
      simp only [synthOnce, hidem, hrs, bind, Except.bind, pure, Except.pure]

theorem c4_witness :
    synthOnce minVexample none
      ⟨scenarioLedger ++ [(⟨"react", some "16.0.0", .BUILD⟩ : Dependency)],
        [⟨"compile", "tsc"⟩], [("projen", ["npx projen"])], true, "projen",
        "npx projen"⟩ =
      .ok
        (⟨scenarioLedger ++
            [(⟨"react", some "16.0.0", .BUILD⟩ : Dependency)],
          [⟨"compile", "tsc"⟩], [("projen", ["npx projen"])], true,
          "projen", "npx projen"⟩,
          ⟨[("left-pad", "*")], [("test-lib", "^3"), ("react", "16.0.0")],
            [("react", "^16")], []⟩,
          [("projen", "npx projen"), ("compile", "npx projen compile")]) :=
  c4_synthesis_idempotent minVexample none
    ⟨scenarioLedger, [⟨"compile", "tsc"⟩], [("projen", ["npx projen"])],
      true, "projen", "npx projen"⟩
    ⟨scenarioLedger ++ [(⟨"react", some "16.0.0", .BUILD⟩ : Dependency)],
      [⟨"compile", "tsc"⟩], [("projen", ["npx projen"])], true, "projen",
      "npx projen"⟩
    ⟨[("left-pad", "*")], [("test-lib", "^3"), ("react", "16.0.0")],
      [("react", "^16")], []⟩
    [("projen", "npx projen"), ("compile", "npx projen compile")]
    goodMinV_minVexample (by decide) (by decide) rfl

end Projen
